import Mathlib

/-
Verification of the tf-idf-js keyword-extraction library.

The library consists of four pieces, all embedded below:
  * Graph<T>            (src/graph.ts)            — insertion-ordered adjacency maps;
  * TfIdf               (src/tf-idf.ts)           — corpus weight scorer;
  * TextRank            (src/text-rank.ts)        — co-occurrence graph + damped ranking;
  * KeywordExtractor    (src/keyword-extractor.ts) — per-document orchestration.

JavaScript `Map` objects are modelled as insertion-ordered association lists;
JavaScript numbers are modelled as elements of a linear ordered field
(instantiated at ℚ for concrete evaluation and at ℝ where `Math.log` matters,
which is modelled as `Real.log`).  The JavaScript expression `x || d` on
numbers treats `0` as falsy; it is modelled by `jsOr`.
-/

set_option maxHeartbeats 1000000

/-- Lookup in a JavaScript `Map` modelled as an insertion-ordered association
list (`Map.prototype.get`, `undefined` becoming `none`). -/
def mapGet {κ β : Type} [DecidableEq κ] : List (κ × β) → κ → Option β
  | [], _ => none
  | (k, v) :: rest, k0 => if k = k0 then some v else mapGet rest k0

/-- JavaScript `Map.prototype.set`: overwrite in place when the key is present
(preserving its position), append at the end otherwise. -/
def mapSet {κ β : Type} [DecidableEq κ] : List (κ × β) → κ → β → List (κ × β)
  | [], k0, v0 => [(k0, v0)]
  | (k, v) :: rest, k0, v0 =>
      if k = k0 then (k, v0) :: rest else (k, v) :: mapSet rest k0 v0

/-- The keys of a JavaScript `Map`, in insertion order (`Map.prototype.keys`). -/
def mapKeys {κ β : Type} (m : List (κ × β)) : List κ := m.map Prod.fst

/-- JavaScript `x || d` for a possibly-missing number `x`: the default `d` is
used when `x` is absent or when `x` is `0` (zero is falsy in JavaScript). -/
def jsOr {γ : Type} [Zero γ] [DecidableEq γ] : Option γ → γ → γ
  | none, d => d
  | some x, d => if x = 0 then d else x

/-- JavaScript `Array.prototype.slice(a, b)` for already-clamped bounds:
the elements at indices `[a, min b length)`. -/
def jsSlice {γ : Type} (l : List γ) (a b : Nat) : List γ := (l.take b).drop a

/-- Worker for `setDedup`: emit each element not yet seen, in order, tracking
the already-emitted elements in `seen`. -/
def setDedupGo {γ : Type} [DecidableEq γ] (seen : List γ) : List γ → List γ
  | [] => []
  | x :: xs =>
      if x ∈ seen then setDedupGo seen xs
      else x :: setDedupGo (x :: seen) xs

/-- Iteration order of `new Set(l)`: the elements of `l` with duplicates
removed, keeping the first occurrence of each element. -/
def setDedup {γ : Type} [DecidableEq γ] (l : List γ) : List γ :=
  setDedupGo [] l

/-- `Graph<T>` from src/graph.ts: `nodes: Map<T, Map<T, number>>`
(from → (to → weight)), both maps in insertion order. -/
abbrev Graph (β α : Type) : Type := List (β × List (β × α))

/-- `Graph.addNode`: insert the node with an empty adjacency map unless it is
already present. -/
def Graph.addNode {β α : Type} [DecidableEq β] (g : Graph β α) (node : β) :
    Graph β α :=
  match mapGet g node with
  | some _ => g
  | none => g ++ [(node, [])]

/-- `Graph.addEdge`: ensure both endpoints exist, then add `weight` to the
current from→to weight (`get(to) || 0`). -/
def Graph.addEdge {β α : Type} [DecidableEq β] [LinearOrderedField α]
    (g : Graph β α) (f t : β) (weight : α) : Graph β α :=
  let g1 := (g.addNode f).addNode t
  let adj := (mapGet g1 f).getD []
  let currentWeight := (mapGet adj t).getD 0
  mapSet g1 f (mapSet adj t (currentWeight + weight))

/-- `Graph.getNodes`: all node keys in insertion order. -/
def Graph.getNodes {β α : Type} (g : Graph β α) : List β := mapKeys g

/-- `Graph.getOutNeighbors`: the adjacency map of a node, empty if unknown. -/
def Graph.getOutNeighbors {β α : Type} [DecidableEq β] (g : Graph β α)
    (node : β) : List (β × α) :=
  (mapGet g node).getD []

/-- `Graph.getInNeighbors`: scan every node's adjacency map for an edge into
`node`, collecting predecessor → weight in insertion order. -/
def Graph.getInNeighbors {β α : Type} [DecidableEq β] (g : Graph β α)
    (node : β) : List (β × α) :=
  g.filterMap (fun p => (mapGet p.2 node).map (fun w => (p.1, w)))

/-- `Graph.getTotalOutWeight`: sum of a node's outgoing edge weights
(`reduce((sum, w) => sum + w, 0)`). -/
def Graph.getTotalOutWeight {β α : Type} [DecidableEq β] [LinearOrderedField α]
    (g : Graph β α) (node : β) : α :=
  ((g.getOutNeighbors node).map Prod.snd).foldl (· + ·) 0

/-- `TextRankOptions` from src/text-rank.ts: all four options optional. -/
structure TextRankOptions (α : Type) where
  damping : Option α := none
  maxIter : Option Nat := none
  minDiff : Option α := none
  windowSize : Option Nat := none

/-- The four configuration fields a `TextRank` instance stores. -/
structure TextRankConfig (α : Type) where
  damping : α
  maxIter : Nat
  minDiff : α
  windowSize : Nat

/-- The `TextRank` constructor: each stored field is
`options.field || default` (JavaScript logical OR, `0` falsy). -/
def TextRank.mkConfig {α : Type} [LinearOrderedField α]
    (options : TextRankOptions α) : TextRankConfig α :=
  { damping := jsOr options.damping 0.85
    maxIter := jsOr options.maxIter 200
    minDiff := jsOr options.minDiff 0.0001
    windowSize := jsOr options.windowSize 5 }

/-- `TextRank.buildGraph`: after `clear()` (the model starts from the empty
graph), add every distinct word as a node, then for each position `i` add a
weight-1 edge from `words[i]` to every element of
`words.slice(max(0, i - windowSize), i) ++ words.slice(i + 1, min(length, i + windowSize + 1))`. -/
def TextRank.buildGraph {α : Type} [LinearOrderedField α]
    (windowSize : Nat) (words : List String) : Graph String α :=
  let uniqueWords := setDedup words
  let g0 : Graph String α := uniqueWords.foldl (fun g w => g.addNode w) []
  (List.range words.length).foldl
    (fun g i =>
      let skip := i - windowSize
      let stop := min words.length (i + windowSize + 1)
      let windowSlice := jsSlice words skip i ++ jsSlice words (i + 1) stop
      let word1 := words.getD i ""
      windowSlice.foldl (fun g w2 => g.addEdge word1 w2 1) g)
    g0

/-- The prior-computation loop of `TextRank.run`, before normalization: the
resulting priors map together with the accumulated `totalWeight`.  With a
supplied `initialWeights` map each word's raw weight is
`initialWeights.get(word) || 1.0`; without one every raw weight is `1.0` and
`totalWeight` is the number of unique words. -/
def TextRank.rawPriors {α : Type} [LinearOrderedField α]
    (uniqueWords : List String) (initialWeights : Option (List (String × α))) :
    List (String × α) × α :=
  match initialWeights with
  | some iw =>
      uniqueWords.foldl
        (fun acc word =>
          let weight := jsOr (mapGet iw word) 1
          (mapSet acc.1 word weight, acc.2 + weight))
        ([], 0)
  | none =>
      (uniqueWords.foldl (fun pr word => mapSet pr word 1) [],
        (uniqueWords.length : α))

/-- The normalization step of `TextRank.run`: when `totalWeight > 0` every
prior is divided by it, otherwise the priors are left untouched. -/
def TextRank.normalizePriors {α : Type} [LinearOrderedField α]
    (pr : List (String × α) × α) : List (String × α) :=
  if 0 < pr.2 then pr.1.map (fun p => (p.1, p.2 / pr.2)) else pr.1

/-- Priors as computed by `TextRank.run` for a given node list:
raw weights followed by conditional normalization. -/
def TextRank.computePriors {α : Type} [LinearOrderedField α]
    (uniqueWords : List String) (initialWeights : Option (List (String × α))) :
    List (String × α) :=
  TextRank.normalizePriors (TextRank.rawPriors uniqueWords initialWeights)

/-- Initialization of `this.scores`: `scores.set(word, priors.get(word) || 0)`
for every unique word. -/
def TextRank.initScores {α : Type} [LinearOrderedField α]
    (uniqueWords : List String) (priors : List (String × α)) :
    List (String × α) :=
  uniqueWords.foldl
    (fun sc word => mapSet sc word ((mapGet priors word).getD 0)) []

/-- One iteration pass of `TextRank.run`: for every node compute
`(1 - damping) * prior + damping * inboundWeightSum` from the previous
snapshot `scores`, collecting the fresh `newScores` map and `max_diff`. -/
def TextRank.stepPass {α : Type} [LinearOrderedField α]
    (cfg : TextRankConfig α) (g : Graph String α)
    (priors scores : List (String × α)) : List (String × α) × α :=
  g.getNodes.foldl
    (fun acc word =>
      let prior := (mapGet priors word).getD 0
      let rank := (1 - cfg.damping) * prior
      let inboundWeightSum :=
        (g.getInNeighbors word).foldl
          (fun s p =>
            let tot := g.getTotalOutWeight p.1
            if 0 < tot then s + p.2 / tot * ((mapGet scores p.1).getD 0)
            else s)
          0
      let newScore := rank + cfg.damping * inboundWeightSum
      let diff := |newScore - (mapGet scores word).getD 0|
      (mapSet acc.1 word newScore, max acc.2 diff))
    ([], 0)

/-- The iteration loop of `TextRank.run`, fueled by the remaining iteration
budget: after each pass the scores are replaced wholesale, and the loop breaks
once `max_diff < minDiff`.  Returns the final scores together with the number
of passes performed. -/
def TextRank.iterate {α : Type} [LinearOrderedField α]
    (cfg : TextRankConfig α) (g : Graph String α)
    (priors : List (String × α)) :
    Nat → List (String × α) → List (String × α) × Nat
  | 0, scores => (scores, 0)
  | fuel + 1, scores =>
      let step := TextRank.stepPass cfg g priors scores
      if step.2 < cfg.minDiff then (step.1, 1)
      else
        let rest := TextRank.iterate cfg g priors fuel step.1
        (rest.1, rest.2 + 1)

/-- `TextRank.run` end to end: build the graph, compute priors, initialize
scores, iterate up to `maxIter` passes.  Returns the final scores and the
number of passes performed. -/
def TextRank.runState {α : Type} [LinearOrderedField α]
    (cfg : TextRankConfig α) (words : List String)
    (initialWeights : Option (List (String × α))) :
    List (String × α) × Nat :=
  let g := TextRank.buildGraph cfg.windowSize words
  let uniq := g.getNodes
  let priors := TextRank.computePriors uniq initialWeights
  let scores0 := TextRank.initScores uniq priors
  TextRank.iterate cfg g priors cfg.maxIter scores0

/-- The score map in which `TextRank.run` leaves `this.scores`. -/
def TextRank.runScores {α : Type} [LinearOrderedField α]
    (cfg : TextRankConfig α) (words : List String)
    (initialWeights : Option (List (String × α))) : List (String × α) :=
  (TextRank.runState cfg words initialWeights).1

/-- The number of iteration passes `TextRank.run` performs. -/
def TextRank.runPasses {α : Type} [LinearOrderedField α]
    (cfg : TextRankConfig α) (words : List String)
    (initialWeights : Option (List (String × α))) : Nat :=
  (TextRank.runState cfg words initialWeights).2

/-- The priors a `TextRank.run` call computes for its input. -/
def TextRank.runPriors {α : Type} [LinearOrderedField α]
    (cfg : TextRankConfig α) (words : List String)
    (initialWeights : Option (List (String × α))) : List (String × α) :=
  TextRank.computePriors
    (Graph.getNodes (TextRank.buildGraph (α := α) cfg.windowSize words))
    initialWeights

/-- `TextRank.getTopKeywords`: entries sorted descending by score (stable sort,
as JavaScript `Array.prototype.sort`), truncated to `topN`. -/
def TextRank.getTopKeywords {α : Type} [LinearOrderedField α]
    (scores : List (String × α)) (topN : Nat) : List (String × α) :=
  (scores.mergeSort (fun p q => decide (q.2 ≤ p.2))).take topN

/-- The `TfIdf` instance state from src/tf-idf.ts.  `warnings` models the
`console.warn` diagnostics emitted by the constructor. -/
structure TfIdf where
  documents : List (List String)
  idfCache : List (String × ℝ)
  docTermCounts : List Nat
  warnings : List String

/-- The `docFrequency` map built inside `TfIdf.calculateAllIdf`: for every
document, each of its distinct terms has its count bumped by one
(`docFrequency.get(term) || 0` then `+ 1`). -/
def TfIdf.docFrequency (documents : List (List String)) : List (String × Nat) :=
  documents.foldl
    (fun m doc =>
      (setDedup doc).foldl
        (fun m term => mapSet m term ((mapGet m term).getD 0 + 1)) m)
    []

/-- `TfIdf.calculateAllIdf`: the IDF cache, mapping each term of the
`docFrequency` map to `Math.log(totalDocs / (freq + 1)) + 1`.  `Math.log`
is modelled as `Real.log`. -/
noncomputable def TfIdf.calculateAllIdf (documents : List (List String)) :
    List (String × ℝ) :=
  (TfIdf.docFrequency documents).map
    (fun p =>
      (p.1, Real.log ((documents.length : ℝ) / ((p.2 : ℝ) + 1)) + 1))

/-- The `TfIdf` constructor: an empty corpus leaves the instance in its
degraded initial state and records a `console.warn` diagnostic; otherwise the
documents are stored, term counts cached and the IDF cache computed once. -/
noncomputable def TfIdf.ofDocuments (documents : List (List String)) : TfIdf :=
  if documents.isEmpty then
    { documents := []
      idfCache := []
      docTermCounts := []
      warnings := ["TfIdfCalculator: Documents array is empty or invalid."] }
  else
    { documents := documents
      idfCache := TfIdf.calculateAllIdf documents
      docTermCounts := documents.map List.length
      warnings := [] }

/-- `TfIdf.calculateTf`: `0` for an empty document, otherwise the number of
occurrences of the term divided by the document length. -/
noncomputable def TfIdf.calculateTf (term : String) (document : List String) :
    ℝ :=
  let totalTermsInDoc := document.length
  if totalTermsInDoc = 0 then 0
  else ((document.filter (fun t => t = term)).length : ℝ) /
    (totalTermsInDoc : ℝ)

/-- `TfIdf.getTfIdf`: `0` plus a `console.error` diagnostic for a missing
document index, otherwise `tf * (idfCache.get(term) || 0)`.  The second
component models the diagnostics emitted by the call. -/
noncomputable def TfIdf.getTfIdf (m : TfIdf) (term : String) (docIndex : Nat) :
    ℝ × List String :=
  match m.documents.get? docIndex with
  | none =>
      (0, ["Document with index " ++ toString docIndex ++ " not found."])
  | some document =>
      (TfIdf.calculateTf term document * (mapGet m.idfCache term).getD 0, [])

/-- `TfIdf.getDocumentScores`: an empty record plus a `console.error`
diagnostic for a missing document index, otherwise each distinct term of the
document mapped to its TF-IDF score.  The second component models the
diagnostics emitted by the call. -/
noncomputable def TfIdf.getDocumentScores (m : TfIdf) (docIndex : Nat) :
    List (String × ℝ) × List String :=
  match m.documents.get? docIndex with
  | none =>
      ([], ["Document with index " ++ toString docIndex ++ " not found."])
  | some document =>
      ((setDedup document).foldl
        (fun sc term => mapSet sc term (m.getTfIdf term docIndex).1) [],
        [])

/-- The `KeywordExtractor` instance state from src/keyword-extractor.ts. -/
structure KeywordExtractor where
  tokenizedDocs : List (List String)
  tfidfModel : Option TfIdf

/-- The `KeywordExtractor` constructor.  Tokenization and stopword removal are
external collaborators (spec section 6); the model receives the token
sequences they produce, one per supplied document.  A `TfIdf` model is built
over all sequences exactly when more than one document was supplied. -/
noncomputable def KeywordExtractor.ofTokenizedDocs
    (tokenizedDocs : List (List String)) : KeywordExtractor :=
  { tokenizedDocs := tokenizedDocs
    tfidfModel :=
      if 1 < tokenizedDocs.length then
        some (TfIdf.ofDocuments tokenizedDocs)
      else none }

/-- `KeywordExtractor.getKeywords`: for each document in input order, take its
TF-IDF score map as initial weights when a corpus model exists, run a fresh
`TextRank` engine on the document's tokens and keep the top `topN` pairs. -/
noncomputable def KeywordExtractor.getKeywords (ke : KeywordExtractor)
    (topN : Nat) (textRankOptions : TextRankOptions ℝ) :
    List (List (String × ℝ)) :=
  (List.range ke.tokenizedDocs.length).map
    (fun i =>
      let docTokens := ke.tokenizedDocs.getD i []
      let initialWeights :=
        ke.tfidfModel.map (fun m => (m.getDocumentScores i).1)
      let cfg := TextRank.mkConfig textRankOptions
      TextRank.getTopKeywords
        (TextRank.runScores cfg docTokens initialWeights) topN)

/-- SPEC-SIDE (spec section 4.2): the weight stored on the directed edge
`f → t`, `0` when absent. -/
def Graph.edgeWeight {β α : Type} [DecidableEq β] [LinearOrderedField α]
    (g : Graph β α) (f t : β) : α :=
  (mapGet (g.getOutNeighbors f) t).getD 0

/-- SPEC-SIDE (claim C5): the number of ordered position pairs `(i, j)` of the
token sequence with `j` inside the clipped window `[i - windowSize,
i + windowSize]`, `j ≠ i`, carrying the terms `u` at `i` and `v` at `j`. -/
def windowPairCount (windowSize : Nat) (words : List String) (u v : String) :
    Nat :=
  ((List.range words.length).map
    (fun i =>
      ((List.range words.length).filter
        (fun j =>
          j ≠ i ∧ i - windowSize ≤ j ∧ j < i + windowSize + 1 ∧
            words.getD i "" = u ∧ words.getD j "" = v)).length)).sum

/-- SPEC-SIDE (spec section 4.3 step 5): the rank-update formula
`newScore(w) = (1 - damping) * prior(w) + damping * Σ (edgeWeight(u, w) /
totalOutWeight(u)) * oldScore(u)` over the in-neighbors `u` of `w` whose total
outgoing weight is positive. -/
def specNewScore {α : Type} [LinearOrderedField α]
    (cfg : TextRankConfig α) (g : Graph String α)
    (priors scores : List (String × α)) (w : String) : α :=
  (1 - cfg.damping) * (mapGet priors w).getD 0 +
    cfg.damping *
      (((g.getInNeighbors w).filter
          (fun p => 0 < g.getTotalOutWeight p.1)).map
        (fun p => p.2 / g.getTotalOutWeight p.1 * (mapGet scores p.1).getD 0)).sum

/-- SPEC-SIDE (claim C1 amended): the raw prior weight of a node under the
code's JavaScript-OR lookup: the supplied weight when present and nonzero,
the default `1.0` when the node is absent, the mapping is missing, or the
supplied weight is `0` (falsy). -/
def specRawPrior {α : Type} [LinearOrderedField α]
    (initialWeights : Option (List (String × α))) (w : String) : α :=
  match initialWeights with
  | none => 1
  | some iw => jsOr (mapGet iw w) 1

/-- SPEC-SIDE (spec section 4.2): the document frequency of a term, the number
of documents of the corpus containing it at least once. -/
def specDf (documents : List (List String)) (t : String) : Nat :=
  documents.countP (fun d => decide (t ∈ d))

/-- SPEC-SIDE (spec section 4.2): term frequency `count(t in d) / length(d)`,
`0` for the empty document (real division by zero is `0`). -/
noncomputable def specTf (t : String) (document : List String) : ℝ :=
  ((document.count t : ℝ)) / (document.length : ℝ)

/-- SPEC-SIDE (spec section 4.2): the IDF weight of a term, `ln(N / (df + 1))
+ 1` for a term of the corpus, defaulting to `0` for a term never seen. -/
noncomputable def specIdf (documents : List (List String)) (t : String) : ℝ :=
  if 0 < specDf documents t then
    Real.log ((documents.length : ℝ) / ((specDf documents t : ℝ) + 1)) + 1
  else 0

/-- Looking a key up after `mapSet` yields the written value at that key and
is unchanged elsewhere. -/
theorem mapGet_mapSet {κ β : Type} [DecidableEq κ]
    (m : List (κ × β)) (k k0 : κ) (v : β) :
    mapGet (mapSet m k v) k0 = if k = k0 then some v else mapGet m k0 := by
  induction m with
  | nil => by_cases h : k = k0 <;> simp [mapSet, mapGet, h]
  | cons p rest ih =>
    obtain ⟨k1, v1⟩ := p
    by_cases h1 : k1 = k
    · subst h1
      by_cases h0 : k1 = k0 <;> simp [mapSet, mapGet, h0]
    · by_cases h0 : k1 = k0
      · subst h0
        have hne : ¬k = k1 := fun h => h1 h.symm
        simp [mapSet, mapGet, h1, hne]
      · simp [mapSet, mapGet, h1, h0, ih]

/-- Membership in the key list of a nonempty map, unfolded one step. -/
theorem mem_mapKeys_cons {κ β : Type} (k k1 : κ) (v1 : β)
    (rest : List (κ × β)) :
    k ∈ mapKeys ((k1, v1) :: rest) ↔ k = k1 ∨ k ∈ mapKeys rest := by
  simp [mapKeys]

/-- A lookup fails exactly on the keys the map does not hold. -/
theorem mapGet_eq_none_iff {κ β : Type} [DecidableEq κ]
    (m : List (κ × β)) (k : κ) :
    mapGet m k = none ↔ k ∉ mapKeys m := by
  induction m with
  | nil => simp [mapGet, mapKeys]
  | cons p rest ih =>
    obtain ⟨k1, v1⟩ := p
    by_cases h1 : k1 = k
    · subst h1
      simp [mapGet, mem_mapKeys_cons]
    · have h1' : ¬k = k1 := fun h => h1 h.symm
      simp [mapGet, h1, h1', mem_mapKeys_cons, ih]

/-- `mapSet` on a key already present leaves the key list unchanged. -/
theorem mapKeys_mapSet_of_mem {κ β : Type} [DecidableEq κ]
    (m : List (κ × β)) (k : κ) (v : β) (h : k ∈ mapKeys m) :
    mapKeys (mapSet m k v) = mapKeys m := by
  induction m with
  | nil => simp [mapKeys] at h
  | cons p rest ih =>
    obtain ⟨k1, v1⟩ := p
    by_cases h1 : k1 = k
    · simp [mapSet, mapKeys, h1]
    · have h2 : k ∈ mapKeys rest := by
        rcases (mem_mapKeys_cons k k1 v1 rest).mp h with h' | h'
        · exact absurd h'.symm h1
        · exact h'
      simp only [mapSet, if_neg h1, mapKeys, List.map_cons]
      have := ih h2
      simp only [mapKeys] at this
      rw [this]

/-- `mapSet` on an absent key appends the binding at the end. -/
theorem mapSet_of_not_mem {κ β : Type} [DecidableEq κ]
    (m : List (κ × β)) (k : κ) (v : β) (h : k ∉ mapKeys m) :
    mapSet m k v = m ++ [(k, v)] := by
  induction m with
  | nil => simp [mapSet]
  | cons p rest ih =>
    obtain ⟨k1, v1⟩ := p
    have h1 : ¬k1 = k := by
      intro hk
      exact h ((mem_mapKeys_cons k k1 v1 rest).mpr (Or.inl hk.symm))
    have h2 : k ∉ mapKeys rest := fun hk =>
      h ((mem_mapKeys_cons k k1 v1 rest).mpr (Or.inr hk))
    simp [mapSet, h1, ih h2]

/-- Lookup distributes over concatenation, preferring the left list. -/
theorem mapGet_append {κ β : Type} [DecidableEq κ]
    (l1 l2 : List (κ × β)) (k : κ) :
    mapGet (l1 ++ l2) k =
      if k ∈ mapKeys l1 then mapGet l1 k else mapGet l2 k := by
  induction l1 with
  | nil => simp [mapKeys, mapGet]
  | cons p rest ih =>
    obtain ⟨k1, v1⟩ := p
    by_cases h1 : k1 = k
    · simp [mapGet, mapKeys, h1]
    · have : (k ∈ mapKeys ((k1, v1) :: rest)) ↔ k ∈ mapKeys rest := by
        simp [mapKeys]
        intro h; exact absurd h.symm h1
      simp [mapGet, h1, ih, this]

/-- Mapping a function over the values commutes with lookup. -/
theorem mapGet_map_value {κ β γ : Type} [DecidableEq κ]
    (m : List (κ × β)) (f : β → γ) (k : κ) :
    mapGet (m.map (fun p => (p.1, f p.2))) k = (mapGet m k).map f := by
  induction m with
  | nil => simp [mapGet]
  | cons p rest ih =>
    obtain ⟨k1, v1⟩ := p
    by_cases h1 : k1 = k <;> simp [mapGet, h1, ih]

/-- A left fold whose two accumulator components do not interact splits into
two independent folds. -/
theorem foldl_prod_split {γ A B : Type} (f : A → γ → A) (h : B → γ → B) :
    ∀ (l : List γ) (a : A) (b : B),
      l.foldl (fun p x => (f p.1 x, h p.2 x)) (a, b) =
        (l.foldl f a, l.foldl h b) := by
  intro l
  induction l with
  | nil => intro a b; rfl
  | cons x xs ih => intro a b; simpa using ih (f a x) (h b x)

/-- Folding `mapSet` writes whose value depends only on the key: the final
lookup returns the write for any key of the list and falls back to the
initial map otherwise. -/
theorem mapGet_foldl_mapSet {κ β : Type} [DecidableEq κ] (c : κ → β) :
    ∀ (l : List κ) (init : List (κ × β)) (k : κ),
      mapGet (l.foldl (fun m w => mapSet m w (c w)) init) k =
        if k ∈ l then some (c k) else mapGet init k := by
  intro l
  induction l with
  | nil => intro init k; simp
  | cons x xs ih =>
    intro init k
    rw [List.foldl_cons, ih]
    by_cases hx : k = x
    · subst hx
      by_cases hmem : k ∈ xs <;> simp [hmem, mapGet_mapSet]
    · have hx' : ¬x = k := fun h => hx h.symm
      by_cases hmem : k ∈ xs <;> simp [hmem, hx, hx', mapGet_mapSet]

/-- Folding `mapSet` writes over a duplicate-free list of keys disjoint from
the initial map appends the bindings in list order. -/
theorem foldl_mapSet_eq_append {κ β : Type} [DecidableEq κ] (c : κ → β) :
    ∀ (l : List κ), l.Nodup →
      ∀ init : List (κ × β), (∀ w ∈ l, w ∉ mapKeys init) →
        l.foldl (fun m w => mapSet m w (c w)) init =
          init ++ l.map (fun w => (w, c w)) := by
  intro l
  induction l with
  | nil => intro _ init _; simp
  | cons x xs ih =>
    intro hnd init hdis
    have hx : x ∉ mapKeys init := hdis x (by simp)
    rw [List.foldl_cons, mapSet_of_not_mem init x (c x) hx,
      ih hnd.of_cons (init ++ [(x, c x)])]
    · simp
    · intro w hw
      have hw1 : w ∉ mapKeys init := hdis w (by simp [hw])
      have hw2 : w ≠ x := by
        intro hwx
        exact (List.nodup_cons.mp hnd).1 (hwx ▸ hw)
      simp [mapKeys, hw2]
      simpa [mapKeys] using hw1

/-- Folding count bumps over a duplicate-free key list: each listed key's
count rises by one, other keys are untouched. -/
theorem mapGet_foldl_bump {κ : Type} [DecidableEq κ] :
    ∀ (l : List κ), l.Nodup →
      ∀ (m0 : List (κ × Nat)) (t : κ),
        mapGet
            (l.foldl
              (fun m w => mapSet m w ((mapGet m w).getD 0 + 1)) m0) t =
          if t ∈ l then some ((mapGet m0 t).getD 0 + 1) else mapGet m0 t := by
  intro l
  induction l with
  | nil => intro _ m0 t; simp
  | cons x xs ih =>
    intro hnd m0 t
    rw [List.foldl_cons, ih hnd.of_cons]
    by_cases hx : t = x
    · subst hx
      have : t ∉ xs := (List.nodup_cons.mp hnd).1
      simp [this, mapGet_mapSet]
    · have hx' : ¬x = t := fun h => hx h.symm
      by_cases hmem : t ∈ xs <;> simp [hmem, hx, hx', mapGet_mapSet]

/-- A guarded accumulating fold is the sum of the guarded summands over the
filtered list. -/
theorem foldl_filter_sum {γ α : Type} [AddCommMonoid α]
    (p : γ → Prop) [DecidablePred p] (t : γ → α) :
    ∀ (l : List γ) (s0 : α),
      l.foldl (fun s x => if p x then s + t x else s) s0 =
        s0 + ((l.filter (fun x => decide (p x))).map t).sum := by
  intro l
  induction l with
  | nil => intro s0; simp
  | cons x xs ih =>
    intro s0
    by_cases h : p x <;> simp [List.filter_cons, h, ih, add_assoc]

/-- An element appears in the dedup worker's output exactly when it appears
in the remaining input and has not been seen yet. -/
theorem mem_setDedupGo {γ : Type} [DecidableEq γ] :
    ∀ (l seen : List γ) (x : γ),
      x ∈ setDedupGo seen l ↔ x ∈ l ∧ x ∉ seen := by
  intro l
  induction l with
  | nil => intro seen x; simp [setDedupGo]
  | cons y ys ih =>
    intro seen x
    by_cases hy : y ∈ seen
    · rw [setDedupGo, if_pos hy, ih]
      by_cases hxy : x = y
      · subst hxy
        simp [hy]
      · simp [hxy]
    · rw [setDedupGo, if_neg hy]
      by_cases hxy : x = y
      · subst hxy
        simp [hy]
      · simp [hxy, ih]

/-- `setDedup` keeps exactly the elements of its input. -/
theorem mem_setDedup {γ : Type} [DecidableEq γ] (l : List γ) (x : γ) :
    x ∈ setDedup l ↔ x ∈ l := by
  unfold setDedup
  rw [mem_setDedupGo]
  simp

/-- The dedup worker returns a duplicate-free list. -/
theorem setDedupGo_nodup {γ : Type} [DecidableEq γ] :
    ∀ (l seen : List γ), (setDedupGo seen l).Nodup := by
  intro l
  induction l with
  | nil => intro seen; simp [setDedupGo]
  | cons y ys ih =>
    intro seen
    by_cases hy : y ∈ seen
    · rw [setDedupGo, if_pos hy]
      exact ih seen
    · rw [setDedupGo, if_neg hy]
      refine List.nodup_cons.mpr ⟨?_, ih (y :: seen)⟩
      rw [mem_setDedupGo]
      simp

/-- `setDedup` returns a duplicate-free list. -/
theorem setDedup_nodup {γ : Type} [DecidableEq γ] (l : List γ) :
    (setDedup l).Nodup :=
  setDedupGo_nodup l []

/-- `addNode` on a node already in the graph is the identity. -/
theorem Graph.addNode_of_mem {β α : Type} [DecidableEq β]
    (g : Graph β α) (n : β) (h : n ∈ g.getNodes) : g.addNode n = g := by
  rcases hg : mapGet g n with _ | adj
  · exact absurd ((mapGet_eq_none_iff g n).mp hg) (not_not_intro h)
  · unfold Graph.addNode
    rw [hg]

/-- `addNode` on an absent node appends it with an empty adjacency map. -/
theorem Graph.addNode_of_not_mem {β α : Type} [DecidableEq β]
    (g : Graph β α) (n : β) (h : n ∉ g.getNodes) :
    g.addNode n = g ++ [(n, [])] := by
  unfold Graph.addNode
  rw [(mapGet_eq_none_iff g n).mpr h]

/-- `addNode` never changes any edge weight. -/
theorem Graph.edgeWeight_addNode {β α : Type} [DecidableEq β]
    [LinearOrderedField α] (g : Graph β α) (n u v : β) :
    (g.addNode n).edgeWeight u v = g.edgeWeight u v := by
  by_cases h : n ∈ g.getNodes
  · rw [Graph.addNode_of_mem g n h]
  · rw [Graph.addNode_of_not_mem g n h]
    unfold Graph.edgeWeight Graph.getOutNeighbors
    rw [mapGet_append]
    by_cases hu : u ∈ mapKeys g
    · simp [hu]
    · have : mapGet g u = none := (mapGet_eq_none_iff g u).mpr hu
      by_cases hn : n = u <;> simp [hu, this, mapGet, hn]

/-- The node list after `addNode`: unchanged when present, appended when new. -/
theorem Graph.getNodes_addNode {β α : Type} [DecidableEq β]
    (g : Graph β α) (n : β) :
    (g.addNode n).getNodes =
      if n ∈ g.getNodes then g.getNodes else g.getNodes ++ [n] := by
  by_cases h : n ∈ g.getNodes
  · rw [Graph.addNode_of_mem g n h, if_pos h]
  · rw [Graph.addNode_of_not_mem g n h, if_neg h]
    simp [Graph.getNodes, mapKeys]

/-- `addEdge` leaves the node list unchanged when both endpoints are already
nodes. -/
theorem Graph.getNodes_addEdge_of_mem {β α : Type} [DecidableEq β]
    [LinearOrderedField α] (g : Graph β α) (f t : β) (wt : α)
    (hf : f ∈ g.getNodes) (ht : t ∈ g.getNodes) :
    (g.addEdge f t wt).getNodes = g.getNodes := by
  unfold Graph.addEdge
  rw [Graph.addNode_of_mem g f hf, Graph.addNode_of_mem g t ht]
  exact mapKeys_mapSet_of_mem g f _ hf

/-- The single-edge accumulation law of `addEdge`: the from→to weight grows by
`weight`, every other ordered pair keeps its weight. -/
theorem Graph.edgeWeight_addEdge {β α : Type} [DecidableEq β]
    [LinearOrderedField α] (g : Graph β α) (f t u v : β) (wt : α) :
    (g.addEdge f t wt).edgeWeight u v =
      g.edgeWeight u v + if f = u ∧ t = v then wt else 0 := by
  unfold Graph.addEdge
  have hg1 : ∀ a b : β, ((g.addNode f).addNode t).edgeWeight a b =
      g.edgeWeight a b := by
    intro a b
    rw [Graph.edgeWeight_addNode, Graph.edgeWeight_addNode]
  set g1 : Graph β α := (g.addNode f).addNode t with hg1def
  unfold Graph.edgeWeight Graph.getOutNeighbors
  rw [mapGet_mapSet]
  by_cases hfu : f = u
  · subst hfu
    rw [if_pos rfl, Option.getD_some, mapGet_mapSet]
    by_cases htv : t = v
    · subst htv
      rw [if_pos rfl, Option.getD_some, if_pos ⟨rfl, rfl⟩]
      have := hg1 f t
      unfold Graph.edgeWeight Graph.getOutNeighbors at this
      rw [this]
    · rw [if_neg htv, if_neg (fun h : f = f ∧ t = v => htv h.2)]
      have := hg1 f v
      unfold Graph.edgeWeight Graph.getOutNeighbors at this
      rw [this, add_zero]
  · rw [if_neg hfu, if_neg (fun h : f = u ∧ t = v => hfu h.1)]
    have := hg1 u v
    unfold Graph.edgeWeight Graph.getOutNeighbors at this
    rw [this, add_zero]

/-- Folding `addNode` over fresh, duplicate-free nodes appends them in order. -/
theorem getNodes_foldl_addNode {β α : Type} [DecidableEq β] :
    ∀ (l : List β), l.Nodup →
      ∀ g : Graph β α, (∀ w ∈ l, w ∉ g.getNodes) →
        (l.foldl (fun g w => g.addNode w) g).getNodes = g.getNodes ++ l := by
  intro l
  induction l with
  | nil => intro _ g _; simp
  | cons x xs ih =>
    intro hnd g hdis
    rw [List.foldl_cons,
      ih hnd.of_cons (g.addNode x) ?_, Graph.getNodes_addNode,
      if_neg (hdis x (by simp))]
    · simp
    · intro w hw
      rw [Graph.getNodes_addNode, if_neg (hdis x (by simp))]
      intro hmem
      rcases List.mem_append.mp hmem with h | h
      · exact hdis w (by simp [hw]) h
      · have hwx : w = x := by simpa using h
        exact (List.nodup_cons.mp hnd).1 (hwx ▸ hw)

/-- Folding `addNode` never changes an edge weight. -/
theorem edgeWeight_foldl_addNode {β α : Type} [DecidableEq β]
    [LinearOrderedField α] :
    ∀ (l : List β) (g : Graph β α) (u v : β),
      ((l.foldl (fun g w => g.addNode w) g)).edgeWeight u v =
        g.edgeWeight u v := by
  intro l
  induction l with
  | nil => intro g u v; rfl
  | cons x xs ih =>
    intro g u v
    rw [List.foldl_cons, ih, Graph.edgeWeight_addNode]

/-- Folding weight-1 `addEdge` calls from a fixed source: the node list is
unchanged when the source and all targets are already nodes. -/
theorem getNodes_foldl_addEdge {β α : Type} [DecidableEq β]
    [LinearOrderedField α] :
    ∀ (l : List β) (g : Graph β α) (w1 : β), w1 ∈ g.getNodes →
      (∀ w ∈ l, w ∈ g.getNodes) →
      ((l.foldl (fun g w2 => g.addEdge w1 w2 1) g)).getNodes = g.getNodes := by
  intro l
  induction l with
  | nil => intro g w1 _ _; rfl
  | cons x xs ih =>
    intro g w1 h1 hall
    have hx : x ∈ g.getNodes := hall x (by simp)
    have heq := Graph.getNodes_addEdge_of_mem g w1 x 1 h1 hx
    rw [List.foldl_cons, ih (g.addEdge w1 x 1) w1 (heq ▸ h1)
      (fun w hw => heq ▸ hall w (by simp [hw])), heq]

/-- Folding weight-1 `addEdge` calls from a fixed source `w1` over a target
list adds, at each ordered pair `(u, v)`, one unit per occurrence of `v` in
the target list when `w1 = u`, and nothing otherwise. -/
theorem edgeWeight_foldl_addEdge {β α : Type} [DecidableEq β]
    [LinearOrderedField α] :
    ∀ (l : List β) (g : Graph β α) (w1 u v : β),
      ((l.foldl (fun g w2 => g.addEdge w1 w2 1) g)).edgeWeight u v =
        g.edgeWeight u v +
          if w1 = u then ((l.countP (fun w2 => decide (w2 = v)) : Nat) : α)
          else 0 := by
  intro l
  induction l with
  | nil => intro g w1 u v; by_cases h : w1 = u <;> simp [h]
  | cons x xs ih =>
    intro g w1 u v
    rw [List.foldl_cons, ih, Graph.edgeWeight_addEdge, List.countP_cons]
    by_cases hu : w1 = u
    · by_cases hv : x = v <;>
        simp [hu, hv, add_assoc, add_comm (1 : α)]
    · simp [hu, fun h : w1 = u ∧ x = v => hu h.1]

/-- A plain accumulating fold is the sum of the summands. -/
theorem foldl_add_sum {γ α : Type} [AddCommMonoid α] (t : γ → α) :
    ∀ (l : List γ) (s0 : α),
      l.foldl (fun s x => s + t x) s0 = s0 + (l.map t).sum := by
  intro l
  induction l with
  | nil => intro s0; simp
  | cons x xs ih => intro s0; simp [ih, add_assoc]

/-- The node list of the co-occurrence graph is exactly the distinct words in
first-occurrence order. -/
theorem getNodes_buildGraph {α : Type} [LinearOrderedField α]
    (ws : Nat) (words : List String) :
    (TextRank.buildGraph (α := α) ws words).getNodes = setDedup words := by
  unfold TextRank.buildGraph
  have h0 : ((setDedup words).foldl
      (fun (g : Graph String α) w => g.addNode w) []).getNodes =
      setDedup words := by
    rw [getNodes_foldl_addNode (setDedup words) (setDedup_nodup words) []
      (fun w _ => by simp [Graph.getNodes, mapKeys])]
    rfl
  have main : ∀ (idxs : List Nat) (g : Graph String α),
      g.getNodes = setDedup words → (∀ i ∈ idxs, i < words.length) →
      ((idxs.foldl
        (fun g i =>
          (jsSlice words (i - ws) i ++
            jsSlice words (i + 1) (min words.length (i + ws + 1))).foldl
            (fun g w2 => g.addEdge (words.getD i "") w2 1) g)
        g)).getNodes = setDedup words := by
    intro idxs
    induction idxs with
    | nil => intro g hg _; exact hg
    | cons i rest ih =>
      intro g hg hlt
      rw [List.foldl_cons]
      refine ih _ ?_ (fun j hj => hlt j (by simp [hj]))
      rw [getNodes_foldl_addEdge _ g (words.getD i "") ?_ ?_]
      · exact hg
      · rw [hg, mem_setDedup]
        have hi : i < words.length := hlt i (by simp)
        rw [List.getD_eq_getElem words "" hi]
        exact List.getElem_mem hi
      · intro w hw
        rw [hg, mem_setDedup]
        rcases List.mem_append.mp hw with h | h
        · exact List.take_subset _ _ (List.drop_subset _ _ h)
        · exact List.take_subset _ _ (List.drop_subset _ _ h)
  exact main (List.range words.length) _ h0 (by simp)

/-- A count splits along any further Boolean test. -/
theorem countP_split {γ : Type} (p q : γ → Bool) :
    ∀ l : List γ,
      l.countP p =
        l.countP (fun x => p x && q x) + l.countP (fun x => p x && !q x) := by
  intro l
  induction l with
  | nil => simp
  | cons x xs ih =>
    rw [List.countP_cons, List.countP_cons, List.countP_cons, ih]
    cases hp : p x <;> cases hq : q x <;> simp [hp, hq] <;> omega

/-- Counting over a JavaScript slice equals counting the matching indices of
the full list that fall inside the slice bounds. -/
theorem countP_jsSlice {γ : Type} (q : γ → Bool) (d : γ) :
    ∀ (l : List γ) (a b : Nat),
      (jsSlice l a b).countP q =
        (List.range l.length).countP
          (fun j => decide (a ≤ j) && decide (j < b) && q (l.getD j d)) := by
  intro l
  induction l with
  | nil => intro a b; simp [jsSlice]
  | cons x xs ih =>
    intro a b
    cases b with
    | zero =>
      have h1 : jsSlice (x :: xs) a 0 = [] := by simp [jsSlice]
      rw [h1, List.countP_nil]
      symm
      simp only [List.countP_eq_zero]
      intro j _
      simp
    | succ b2 =>
      cases a with
      | zero =>
        have hslice : jsSlice (x :: xs) 0 (b2 + 1) = x :: jsSlice xs 0 b2 := by
          simp [jsSlice]
        rw [hslice, List.countP_cons, ih 0 b2, List.length_cons,
          List.range_succ_eq_map, List.countP_cons, List.countP_map]
        congr 1
        · apply List.countP_congr
          intro j _
          simp [Function.comp, Nat.succ_lt_succ_iff]
        · simp
      | succ a2 =>
        have hslice : jsSlice (x :: xs) (a2 + 1) (b2 + 1) = jsSlice xs a2 b2 := by
          simp [jsSlice]
        rw [hslice, ih a2 b2, List.length_cons, List.range_succ_eq_map,
          List.countP_cons, List.countP_map]
        have h0 : (decide (a2 + 1 ≤ 0) && decide ((0 : Nat) < b2 + 1) &&
            q ((x :: xs).getD 0 d)) = false := by simp
        rw [h0]
        simp only [if_false, Bool.false_eq_true, add_zero]
        apply List.countP_congr
        intro j _
        simp [Function.comp, Nat.succ_lt_succ_iff, Nat.succ_le_succ_iff]

/-- For a position `i` of the token sequence, the number of matching targets
in the two window slices equals the number of window partners `j` counted by
the spec-side window predicate. -/
theorem window_count_index (words : List String) (ws i : Nat)
    (u v : String) :
    (if words.getD i "" = u then
      (jsSlice words (i - ws) i ++
        jsSlice words (i + 1) (min words.length (i + ws + 1))).countP
        (fun w2 => decide (w2 = v))
     else 0) =
      ((List.range words.length).filter
        (fun j => j ≠ i ∧ i - ws ≤ j ∧ j < i + ws + 1 ∧
          words.getD i "" = u ∧ words.getD j "" = v)).length := by
  rw [← List.countP_eq_length_filter]
  by_cases hu : words.getD i "" = u
  · rw [if_pos hu, List.countP_append, countP_jsSlice _ "" words (i - ws) i,
      countP_jsSlice _ "" words (i + 1) (min words.length (i + ws + 1))]
    conv_rhs =>
      rw [countP_split _ (fun j => decide (j < i)) (List.range words.length)]
    congr 1
    · apply List.countP_congr
      intro j hj
      simp only [Bool.and_eq_true, decide_eq_true_eq, hu, and_true, true_and]
      constructor
      · rintro ⟨⟨h1, h2⟩, h3⟩
        exact ⟨⟨by omega, by omega, by omega, h3⟩, by omega⟩
      · rintro ⟨⟨hne, h1, h2, h3⟩, h4⟩
        exact ⟨⟨by omega, by omega⟩, h3⟩
    · have hjn : ∀ j ∈ List.range words.length, j < words.length := by
        intro j hj; exact List.mem_range.mp hj
      apply List.countP_congr
      intro j hj
      have hjlt := hjn j hj
      simp only [Bool.and_eq_true, Bool.not_eq_true', decide_eq_true_eq,
        decide_eq_false_iff_not, hu, and_true, true_and]
      constructor
      · rintro ⟨⟨h1, h2⟩, h3⟩
        refine ⟨⟨by omega, by omega, ?_, h3⟩, by omega⟩
        have := lt_min_iff.mp h2
        omega
      · rintro ⟨⟨hne, h1, h2, h3⟩, h4⟩
        refine ⟨⟨by omega, lt_min_iff.mpr ⟨hjlt, h2⟩⟩, h3⟩
  · rw [if_neg hu]
    symm
    rw [List.countP_eq_zero]
    intro j _
    simp only [decide_eq_true_eq, not_and]
    intro _ _ _ h
    exact absurd h hu

/-- The co-occurrence edge weight built by `TextRank.buildGraph` counts the
window pairs carrying the ordered term pair. -/
theorem edgeWeight_buildGraph {α : Type} [LinearOrderedField α]
    (ws : Nat) (words : List String) (u v : String) :
    (TextRank.buildGraph (α := α) ws words).edgeWeight u v =
      (windowPairCount ws words u v : α) := by
  have hg0 : (((setDedup words).foldl
      (fun (g : Graph String α) w => g.addNode w) [])).edgeWeight u v = 0 := by
    rw [edgeWeight_foldl_addNode]
    simp [Graph.edgeWeight, Graph.getOutNeighbors, mapGet]
  have main : ∀ (idxs : List Nat) (g : Graph String α),
      ((idxs.foldl
        (fun g i =>
          (jsSlice words (i - ws) i ++
            jsSlice words (i + 1) (min words.length (i + ws + 1))).foldl
            (fun g w2 => g.addEdge (words.getD i "") w2 1) g)
        g)).edgeWeight u v =
        g.edgeWeight u v +
          ((idxs.map
            (fun i =>
              if words.getD i "" = u then
                (((jsSlice words (i - ws) i ++
                  jsSlice words (i + 1) (min words.length (i + ws + 1))).countP
                  (fun w2 => decide (w2 = v)) : Nat) : α)
              else 0)).sum) := by
    intro idxs
    induction idxs with
    | nil => intro g; simp
    | cons i rest ih =>
      intro g
      rw [List.foldl_cons, ih, edgeWeight_foldl_addEdge]
      simp [add_assoc]
  have hsum : (((List.range words.length).map
      (fun i =>
        if words.getD i "" = u then
          (((jsSlice words (i - ws) i ++
            jsSlice words (i + 1) (min words.length (i + ws + 1))).countP
            (fun w2 => decide (w2 = v)) : Nat) : α)
        else 0)).sum) = (windowPairCount ws words u v : α) := by
    unfold windowPairCount
    rw [Nat.cast_list_sum, List.map_map]
    refine congrArg List.sum (List.map_congr_left ?_)
    intro i hi
    rw [Function.comp_apply, ← window_count_index words ws i u v]
    by_cases hcase : words.getD i "" = u <;> simp [hcase]
  unfold TextRank.buildGraph
  exact (main (List.range words.length) _).trans (by rw [hg0, zero_add, hsum])

/-- Summing the constant `1` over a list counts its length. -/
theorem sum_map_one {α : Type} [LinearOrderedField α] :
    ∀ l : List String, (l.map (fun _ => (1 : α))).sum = (l.length : α) := by
  intro l
  induction l with
  | nil => simp
  | cons x xs ih => simp [ih, add_comm]

/-- Pointwise value of the raw (unnormalized) priors loop of `TextRank.run`. -/
theorem mapGet_rawPriors {α : Type} [LinearOrderedField α]
    (uniq : List String) (iw : Option (List (String × α))) (w : String) :
    mapGet (TextRank.rawPriors uniq iw).1 w =
      if w ∈ uniq then some (specRawPrior iw w) else none := by
  cases iw with
  | none =>
    unfold TextRank.rawPriors specRawPrior
    rw [mapGet_foldl_mapSet (fun _ => (1 : α)) uniq [] w]
    rfl
  | some iwl =>
    have hsplit : TextRank.rawPriors uniq (some iwl) =
        (uniq.foldl (fun m word => mapSet m word (jsOr (mapGet iwl word) 1)) [],
          uniq.foldl (fun s word => s + jsOr (mapGet iwl word) 1) 0) := by
      show List.foldl
        (fun acc word =>
          (mapSet acc.1 word (jsOr (mapGet iwl word) 1),
            acc.2 + jsOr (mapGet iwl word) 1)) ([], 0) uniq = _
      exact foldl_prod_split
        (fun m word => mapSet m word (jsOr (mapGet iwl word) 1))
        (fun s word => s + jsOr (mapGet iwl word) 1) uniq [] 0
    rw [hsplit]
    rw [mapGet_foldl_mapSet (fun word => jsOr (mapGet iwl word) 1) uniq [] w]
    rfl

/-- The accumulated `totalWeight` of the raw priors loop is the sum of the raw
weights over the word list. -/
theorem rawPriors_total {α : Type} [LinearOrderedField α]
    (uniq : List String) (iw : Option (List (String × α))) :
    (TextRank.rawPriors uniq iw).2 = (uniq.map (specRawPrior iw)).sum := by
  cases iw with
  | none =>
    unfold TextRank.rawPriors specRawPrior
    rw [sum_map_one]
  | some iwl =>
    have hsplit : TextRank.rawPriors uniq (some iwl) =
        (uniq.foldl (fun m word => mapSet m word (jsOr (mapGet iwl word) 1)) [],
          uniq.foldl (fun s word => s + jsOr (mapGet iwl word) 1) 0) := by
      show List.foldl
        (fun acc word =>
          (mapSet acc.1 word (jsOr (mapGet iwl word) 1),
            acc.2 + jsOr (mapGet iwl word) 1)) ([], 0) uniq = _
      exact foldl_prod_split
        (fun m word => mapSet m word (jsOr (mapGet iwl word) 1))
        (fun s word => s + jsOr (mapGet iwl word) 1) uniq [] 0
    rw [hsplit, foldl_add_sum (fun word => jsOr (mapGet iwl word) 1) uniq 0,
      zero_add]
    rfl

/-- On a duplicate-free word list the raw priors map lists the words in order
with their raw weights. -/
theorem rawPriors_fst_of_nodup {α : Type} [LinearOrderedField α]
    (uniq : List String) (iw : Option (List (String × α))) (hnd : uniq.Nodup) :
    (TextRank.rawPriors uniq iw).1 =
      uniq.map (fun w => (w, specRawPrior iw w)) := by
  cases iw with
  | none =>
    unfold TextRank.rawPriors specRawPrior
    rw [foldl_mapSet_eq_append (fun _ => (1 : α)) uniq hnd []
      (fun w _ => by simp [mapKeys])]
    rfl
  | some iwl =>
    have hsplit : TextRank.rawPriors uniq (some iwl) =
        (uniq.foldl (fun m word => mapSet m word (jsOr (mapGet iwl word) 1)) [],
          uniq.foldl (fun s word => s + jsOr (mapGet iwl word) 1) 0) := by
      show List.foldl
        (fun acc word =>
          (mapSet acc.1 word (jsOr (mapGet iwl word) 1),
            acc.2 + jsOr (mapGet iwl word) 1)) ([], 0) uniq = _
      exact foldl_prod_split
        (fun m word => mapSet m word (jsOr (mapGet iwl word) 1))
        (fun s word => s + jsOr (mapGet iwl word) 1) uniq [] 0
    rw [hsplit]
    rw [foldl_mapSet_eq_append (fun word => jsOr (mapGet iwl word) 1) uniq hnd []
      (fun w _ => by simp [mapKeys])]
    rfl

/-- Pointwise value of the priors `TextRank.run` computes: the raw weight,
divided by the total exactly when the total is positive. -/
theorem mapGet_computePriors {α : Type} [LinearOrderedField α]
    (uniq : List String) (iw : Option (List (String × α))) (w : String)
    (hw : w ∈ uniq) :
    mapGet (TextRank.computePriors uniq iw) w =
      some (if 0 < (uniq.map (specRawPrior iw)).sum
            then specRawPrior iw w / (uniq.map (specRawPrior iw)).sum
            else specRawPrior iw w) := by
  unfold TextRank.computePriors TextRank.normalizePriors
  rw [rawPriors_total]
  by_cases h : 0 < (uniq.map (specRawPrior iw)).sum
  · rw [if_pos h, if_pos h,
      mapGet_map_value ((TextRank.rawPriors uniq iw).1) (· / (uniq.map (specRawPrior iw)).sum) w,
      mapGet_rawPriors, if_pos hw]
    rfl
  · rw [if_neg h, if_neg h, mapGet_rawPriors, if_pos hw]

/-- C2: each ranking pass of `TextRank.run` computes, for every node `w`,
`newScore(w) = (1 - damping) * prior(w) + damping * Σ (edgeWeight(u, w) /
totalOutWeight(u)) * oldScore(u)` over the in-neighbors `u` of `w`, skipping
every predecessor whose total outgoing weight is not positive.  All old scores
are read from the `scores` snapshot passed to the pass (Jacobi update): the
new map depends only on it, never on scores already updated in the pass. -/
theorem C2_iteration_formula {α : Type} [LinearOrderedField α]
    (cfg : TextRankConfig α) (g : Graph String α)
    (priors scores : List (String × α)) (w : String) (hw : w ∈ g.getNodes) :
    mapGet (TextRank.stepPass cfg g priors scores).1 w =
      some (specNewScore cfg g priors scores w) := by
  have hsplit : TextRank.stepPass cfg g priors scores =
      (g.getNodes.foldl
        (fun ns word => mapSet ns word
          ((1 - cfg.damping) * (mapGet priors word).getD 0 +
            cfg.damping *
              ((g.getInNeighbors word).foldl
                (fun s p =>
                  if 0 < g.getTotalOutWeight p.1 then
                    s + p.2 / g.getTotalOutWeight p.1 *
                      (mapGet scores p.1).getD 0
                  else s) 0))) [],
        g.getNodes.foldl
          (fun md word => max md
            (|((1 - cfg.damping) * (mapGet priors word).getD 0 +
              cfg.damping *
                ((g.getInNeighbors word).foldl
                  (fun s p =>
                    if 0 < g.getTotalOutWeight p.1 then
                      s + p.2 / g.getTotalOutWeight p.1 *
                        (mapGet scores p.1).getD 0
                    else s) 0)) -
              (mapGet scores word).getD 0|)) 0) := by
    show List.foldl
        (fun acc word =>
          (mapSet acc.1 word
            ((1 - cfg.damping) * (mapGet priors word).getD 0 +
              cfg.damping *
                ((g.getInNeighbors word).foldl
                  (fun s p =>
                    if 0 < g.getTotalOutWeight p.1 then
                      s + p.2 / g.getTotalOutWeight p.1 *
                        (mapGet scores p.1).getD 0
                    else s) 0)),
            max acc.2
              (|((1 - cfg.damping) * (mapGet priors word).getD 0 +
                cfg.damping *
                  ((g.getInNeighbors word).foldl
                    (fun s p =>
                      if 0 < g.getTotalOutWeight p.1 then
                        s + p.2 / g.getTotalOutWeight p.1 *
                          (mapGet scores p.1).getD 0
                      else s) 0)) -
                (mapGet scores word).getD 0|))) ([], 0) g.getNodes = _
    exact foldl_prod_split
      (fun ns word => mapSet ns word
        ((1 - cfg.damping) * (mapGet priors word).getD 0 +
          cfg.damping *
            ((g.getInNeighbors word).foldl
              (fun s p =>
                if 0 < g.getTotalOutWeight p.1 then
                  s + p.2 / g.getTotalOutWeight p.1 *
                    (mapGet scores p.1).getD 0
                else s) 0)))
      (fun md word => max md
        (|((1 - cfg.damping) * (mapGet priors word).getD 0 +
          cfg.damping *
            ((g.getInNeighbors word).foldl
              (fun s p =>
                if 0 < g.getTotalOutWeight p.1 then
                  s + p.2 / g.getTotalOutWeight p.1 *
                    (mapGet scores p.1).getD 0
                else s) 0)) -
          (mapGet scores word).getD 0|))
      g.getNodes [] (0 : α)
  rw [hsplit,
    mapGet_foldl_mapSet
      (fun word =>
        (1 - cfg.damping) * (mapGet priors word).getD 0 +
          cfg.damping *
            ((g.getInNeighbors word).foldl
              (fun s p =>
                if 0 < g.getTotalOutWeight p.1 then
                  s + p.2 / g.getTotalOutWeight p.1 *
                    (mapGet scores p.1).getD 0
                else s) 0))
      g.getNodes [] w, if_pos hw,
    foldl_filter_sum (fun p : String × α => 0 < g.getTotalOutWeight p.1)
      (fun p => p.2 / g.getTotalOutWeight p.1 * (mapGet scores p.1).getD 0)
      (g.getInNeighbors w) 0, zero_add]
  rfl

/-- C2 witness: the pass formula instantiated on a concrete one-node graph
with a self-loop, over ℚ. -/
theorem C2_iteration_formula_witness :
    mapGet (TextRank.stepPass (⟨0.85, 200, 0.0001, 5⟩ : TextRankConfig ℚ)
      [("a", [("a", 1)])] [("a", 1)] [("a", 1)]).1 "a" =
      some (specNewScore (⟨0.85, 200, 0.0001, 5⟩ : TextRankConfig ℚ)
        [("a", [("a", 1)])] [("a", 1)] [("a", 1)] "a") :=
  C2_iteration_formula _ _ _ _ "a" (by decide)

/-- C1 counterexample: for `run(["a"])` with the all-zero prior map
`{a ↦ 0}`, the claim predicts prior `0` for node `a` (the looked-up value,
left unnormalized because the raw sum is `0`); the code instead replaces the
falsy supplied `0` by the default `1.0` (`initialWeights.get(word) || 1.0`),
normalizes by the total `1`, and yields prior `1`. -/
theorem C1_priors_counterexample :
    mapGet (TextRank.runPriors (TextRank.mkConfig ({} : TextRankOptions ℚ))
      ["a"] (some [("a", 0)])) "a" = some 1 ∧
    mapGet (TextRank.runPriors (TextRank.mkConfig ({} : TextRankOptions ℚ))
      ["a"] (some [("a", 0)])) "a" ≠ some 0 := by
  have hval : mapGet (TextRank.runPriors
      (TextRank.mkConfig ({} : TextRankOptions ℚ)) ["a"] (some [("a", 0)]))
      "a" = some 1 := by
    unfold TextRank.runPriors
    rw [getNodes_buildGraph]
    have hd : setDedup ["a"] = ["a"] := rfl
    rw [hd, mapGet_computePriors ["a"] (some [("a", 0)]) "a" (by simp)]
    norm_num [specRawPrior, jsOr, mapGet]
  exact ⟨hval, by rw [hval]; simp⟩

/-- C1 amended: the raw prior of a node is the supplied weight when it is
present and nonzero, and the default `1.0` when the node is absent, the
mapping is missing, or the supplied weight is `0` (JavaScript falsy); when the
raw total is positive every prior is divided by it (and the priors then sum to
1 over a duplicate-free node list), and when the raw total is not positive
(possible only with an empty node list or negative supplied weights) the
priors are left unnormalized, with no division performed. -/
theorem C1_priors_amended {α : Type} [LinearOrderedField α]
    (uniq : List String) (iw : Option (List (String × α))) :
    (∀ w ∈ uniq,
      mapGet (TextRank.computePriors uniq iw) w =
        some (if 0 < (uniq.map (specRawPrior iw)).sum
              then specRawPrior iw w / (uniq.map (specRawPrior iw)).sum
              else specRawPrior iw w)) ∧
    (uniq.Nodup → 0 < (uniq.map (specRawPrior iw)).sum →
      ((TextRank.computePriors uniq iw).map Prod.snd).sum = 1) := by
  constructor
  · intro w hw
    exact mapGet_computePriors uniq iw w hw
  · intro hnd hpos
    unfold TextRank.computePriors TextRank.normalizePriors
    rw [rawPriors_total, if_pos hpos, rawPriors_fst_of_nodup uniq iw hnd,
      List.map_map, List.map_map]
    have hmaps : uniq.map ((Prod.snd ∘ fun p : String × α =>
        (p.1, p.2 / (uniq.map (specRawPrior iw)).sum)) ∘
          fun w => (w, specRawPrior iw w)) =
        uniq.map
          (fun w => specRawPrior iw w * ((uniq.map (specRawPrior iw)).sum)⁻¹) := by
      refine List.map_congr_left ?_
      intro w _
      simp [div_eq_mul_inv]
    rw [hmaps, List.sum_map_mul_right, mul_inv_cancel₀ (ne_of_gt hpos)]

/-- C1 amended witness: the all-zero prior map over a single word, over ℚ. -/
theorem C1_priors_amended_witness :
    mapGet (TextRank.computePriors ["a"] (some [("a", (0 : ℚ))])) "a" =
      some (if 0 < ((["a"].map (specRawPrior (some [("a", (0 : ℚ))]))).sum)
            then specRawPrior (some [("a", (0 : ℚ))]) "a" /
              (["a"].map (specRawPrior (some [("a", (0 : ℚ))]))).sum
            else specRawPrior (some [("a", (0 : ℚ))]) "a") ∧
    ((TextRank.computePriors ["a"] (some [("a", (0 : ℚ))])).map Prod.snd).sum
      = 1 :=
  ⟨(C1_priors_amended ["a"] (some [("a", (0 : ℚ))])).1 "a" (by simp),
    (C1_priors_amended ["a"] (some [("a", (0 : ℚ))])).2 (by simp)
      (by norm_num [specRawPrior, jsOr, mapGet])⟩

/-- The pass count of the iteration loop never exceeds the fuel. -/
theorem iterate_passes_le {α : Type} [LinearOrderedField α]
    (cfg : TextRankConfig α) (g : Graph String α)
    (priors : List (String × α)) :
    ∀ (fuel : Nat) (scores : List (String × α)),
      (TextRank.iterate cfg g priors fuel scores).2 ≤ fuel := by
  intro fuel
  induction fuel with
  | zero => intro scores; simp [TextRank.iterate]
  | succ n ih =>
    intro scores
    rw [TextRank.iterate]
    by_cases h : (TextRank.stepPass cfg g priors scores).2 < cfg.minDiff
    · simp only [if_pos h]
      omega
    · simp only [if_neg h]
      exact Nat.succ_le_succ (ih _)

/-- C6: `TextRank.run` always terminates, performing at most `maxIter`
iteration passes, and a pass whose maximum absolute score change is below
`minDiff` is the last pass performed. -/
theorem C6_termination {α : Type} [LinearOrderedField α]
    (cfg : TextRankConfig α) (words : List String)
    (iw : Option (List (String × α))) :
    TextRank.runPasses cfg words iw ≤ cfg.maxIter ∧
    (∀ (g : Graph String α) (priors scores : List (String × α)) (fuel : Nat),
      (TextRank.stepPass cfg g priors scores).2 < cfg.minDiff →
      TextRank.iterate cfg g priors (fuel + 1) scores =
        ((TextRank.stepPass cfg g priors scores).1, 1)) := by
  constructor
  · unfold TextRank.runPasses TextRank.runState
    exact iterate_passes_le cfg _ _ cfg.maxIter _
  · intro g priors scores fuel h
    rw [TextRank.iterate]
    simp only [if_pos h]

/-- C6 witness: on the empty graph the first pass changes nothing, so with a
positive threshold the loop stops after exactly one pass. -/
theorem C6_termination_witness :
    TextRank.runPasses (⟨0.85, 200, 10, 5⟩ : TextRankConfig ℚ) ["a"] none
      ≤ 200 ∧
    TextRank.iterate (⟨0.85, 200, 10, 5⟩ : TextRankConfig ℚ) [] [] 1 [] =
      ([], 1) :=
  ⟨(C6_termination (⟨0.85, 200, 10, 5⟩ : TextRankConfig ℚ) ["a"] none).1,
    (C6_termination (⟨0.85, 200, 10, 5⟩ : TextRankConfig ℚ) [] none).2
      [] [] [] 0 (by decide)⟩

/-- C10: the `TextRank` constructor merges every option with its default via
JavaScript logical OR, so falsy supplied values are silently replaced:
supplying `0` for `damping`, `maxIter`, `minDiff` and `windowSize` yields the
defaults `0.85`, `200`, `0.0001` and `5`; omitted options also yield the
defaults, while truthy (nonzero) supplied values are kept. -/
theorem C10_falsy_options :
    ((TextRank.mkConfig { damping := some 0, maxIter := some 0, minDiff := some 0, windowSize := some 0 } : TextRankConfig ℚ).damping = 0.85 ∧
      (TextRank.mkConfig { damping := some 0, maxIter := some 0, minDiff := some 0, windowSize := some 0 } : TextRankConfig ℚ).maxIter = 200 ∧
      (TextRank.mkConfig { damping := some 0, maxIter := some 0, minDiff := some 0, windowSize := some 0 } : TextRankConfig ℚ).minDiff = 0.0001 ∧
      (TextRank.mkConfig { damping := some 0, maxIter := some 0, minDiff := some 0, windowSize := some 0 } : TextRankConfig ℚ).windowSize = 5) ∧
    ((TextRank.mkConfig ({} : TextRankOptions ℚ)).damping = 0.85 ∧
      (TextRank.mkConfig ({} : TextRankOptions ℚ)).maxIter = 200 ∧
      (TextRank.mkConfig ({} : TextRankOptions ℚ)).minDiff = 0.0001 ∧
      (TextRank.mkConfig ({} : TextRankOptions ℚ)).windowSize = 5) ∧
    ((TextRank.mkConfig { damping := some 0.5, maxIter := some 7, minDiff := some 1, windowSize := some 2 } : TextRankConfig ℚ).damping = 0.5 ∧
      (TextRank.mkConfig { damping := some 0.5, maxIter := some 7, minDiff := some 1, windowSize := some 2 } : TextRankConfig ℚ).maxIter = 7 ∧
      (TextRank.mkConfig { damping := some 0.5, maxIter := some 7, minDiff := some 1, windowSize := some 2 } : TextRankConfig ℚ).minDiff = 1 ∧
      (TextRank.mkConfig { damping := some 0.5, maxIter := some 7, minDiff := some 1, windowSize := some 2 } : TextRankConfig ℚ).windowSize = 2) := by
  refine ⟨⟨?_, ?_, ?_, ?_⟩, ⟨?_, ?_, ?_, ?_⟩, ⟨?_, ?_, ?_, ?_⟩⟩ <;>
    norm_num [TextRank.mkConfig, jsOr]

/-- C5: the co-occurrence graph's node list is exactly the distinct terms of
the token sequence (first occurrences, so membership matches membership in
the tokens), and the weight of every directed edge `u → v` is the number of
position pairs `(i, j)` with `j` in the clipped window
`[i - windowSize, i + windowSize]`, `j ≠ i`, `tokens[i] = u`, `tokens[j] = v`
(weight 1 per pair, accumulating).  In particular, for `windowSize = 2` and
tokens `["a", "b", "c", "d"]`, all pairs at distance at most 2 are connected
in both directions with weight 1 and there is no edge between `a` and `d`. -/
theorem C5_cooccurrence_graph {α : Type} [LinearOrderedField α] :
    (∀ (ws : Nat) (words : List String) (u v : String),
      (TextRank.buildGraph (α := α) ws words).getNodes = setDedup words ∧
      (u ∈ (TextRank.buildGraph (α := α) ws words).getNodes ↔ u ∈ words) ∧
      (TextRank.buildGraph (α := α) ws words).edgeWeight u v =
        (windowPairCount ws words u v : α)) ∧
    ((TextRank.buildGraph (α := α) 2 ["a", "b", "c", "d"]).edgeWeight "a" "b" = 1 ∧
      (TextRank.buildGraph (α := α) 2 ["a", "b", "c", "d"]).edgeWeight "b" "a" = 1 ∧
      (TextRank.buildGraph (α := α) 2 ["a", "b", "c", "d"]).edgeWeight "a" "c" = 1 ∧
      (TextRank.buildGraph (α := α) 2 ["a", "b", "c", "d"]).edgeWeight "c" "a" = 1 ∧
      (TextRank.buildGraph (α := α) 2 ["a", "b", "c", "d"]).edgeWeight "b" "c" = 1 ∧
      (TextRank.buildGraph (α := α) 2 ["a", "b", "c", "d"]).edgeWeight "c" "b" = 1 ∧
      (TextRank.buildGraph (α := α) 2 ["a", "b", "c", "d"]).edgeWeight "b" "d" = 1 ∧
      (TextRank.buildGraph (α := α) 2 ["a", "b", "c", "d"]).edgeWeight "d" "b" = 1 ∧
      (TextRank.buildGraph (α := α) 2 ["a", "b", "c", "d"]).edgeWeight "c" "d" = 1 ∧
      (TextRank.buildGraph (α := α) 2 ["a", "b", "c", "d"]).edgeWeight "d" "c" = 1) ∧
    (TextRank.buildGraph (α := α) 2 ["a", "b", "c", "d"]).edgeWeight "a" "d" = 0 ∧
    (TextRank.buildGraph (α := α) 2 ["a", "b", "c", "d"]).edgeWeight "d" "a" = 0 := by
  have hgen : ∀ (ws : Nat) (words : List String) (u v : String),
      (TextRank.buildGraph (α := α) ws words).edgeWeight u v =
        (windowPairCount ws words u v : α) := edgeWeight_buildGraph
  refine ⟨fun ws words u v =>
    ⟨getNodes_buildGraph ws words,
      by rw [getNodes_buildGraph, mem_setDedup], hgen ws words u v⟩,
    ⟨?_, ?_, ?_, ?_, ?_, ?_, ?_, ?_, ?_, ?_⟩, ?_, ?_⟩ <;>
    rw [hgen] <;> norm_num <;> decide

/-- The document-frequency fold bumps a term's count once per document that
contains it. -/
theorem mapGet_docFrequency_fold :
    ∀ (documents : List (List String)) (m0 : List (String × Nat)) (t : String),
      mapGet (documents.foldl
        (fun m doc =>
          (setDedup doc).foldl
            (fun m term => mapSet m term ((mapGet m term).getD 0 + 1)) m)
        m0) t =
        if 0 < specDf documents t then
          some ((mapGet m0 t).getD 0 + specDf documents t)
        else mapGet m0 t := by
  intro documents
  induction documents with
  | nil => intro m0 t; simp [specDf]
  | cons doc ds ih =>
    intro m0 t
    rw [List.foldl_cons, ih]
    have hin := mapGet_foldl_bump (setDedup doc) (setDedup_nodup doc) m0 t
    have hdf : specDf (doc :: ds) t = (if t ∈ doc then 1 else 0) + specDf ds t := by
      unfold specDf
      rw [List.countP_cons]
      by_cases h : t ∈ doc <;> simp [h, Nat.add_comm]
    by_cases hmem : t ∈ doc
    · have hsd : t ∈ setDedup doc := (mem_setDedup doc t).mpr hmem
      rw [if_pos hsd] at hin
      rw [hin, hdf, if_pos hmem]
      by_cases hds : 0 < specDf ds t
      · rw [if_pos hds, if_pos (by omega)]
        simp only [Option.getD_some]
        congr 1
        omega
      · rw [if_neg hds, if_pos (by omega)]
        congr 1
        omega
    · have hsd : t ∉ setDedup doc := fun h => hmem ((mem_setDedup doc t).mp h)
      rw [if_neg hsd] at hin
      rw [hin, hdf, if_neg hmem]
      simp only [Nat.zero_add]
  
/-- Lookup in the document-frequency map: the document frequency for a term
of the corpus, absent otherwise. -/
theorem mapGet_docFrequency (documents : List (List String)) (t : String) :
    mapGet (TfIdf.docFrequency documents) t =
      if 0 < specDf documents t then some (specDf documents t) else none := by
  unfold TfIdf.docFrequency
  rw [mapGet_docFrequency_fold]
  by_cases h : 0 < specDf documents t <;> simp [h, mapGet]

/-- Lookup in the cached IDF map for a term of the corpus:
`ln(N / (df + 1)) + 1`. -/
theorem idfCache_lookup (documents : List (List String)) (t : String)
    (h : 0 < specDf documents t) :
    mapGet (TfIdf.ofDocuments documents).idfCache t =
      some (Real.log ((documents.length : ℝ) /
        ((specDf documents t : ℝ) + 1)) + 1) := by
  have hne : documents.isEmpty = false := by
    cases documents with
    | nil => simp [specDf] at h
    | cons d ds => rfl
  unfold TfIdf.ofDocuments
  rw [if_neg (by simp [hne])]
  unfold TfIdf.calculateAllIdf
  rw [mapGet_map_value (TfIdf.docFrequency documents)
    (fun x : Nat => Real.log ((documents.length : ℝ) / ((x : ℝ) + 1)) + 1) t,
    mapGet_docFrequency, if_pos h]
  rfl

/-- A term never seen in the corpus has no entry in the cached IDF map. -/
theorem idfCache_lookup_none (documents : List (List String)) (t : String)
    (h : specDf documents t = 0) :
    mapGet (TfIdf.ofDocuments documents).idfCache t = none := by
  unfold TfIdf.ofDocuments
  by_cases he : documents.isEmpty
  · rw [if_pos he]
    rfl
  · rw [if_neg he]
    unfold TfIdf.calculateAllIdf
    rw [mapGet_map_value (TfIdf.docFrequency documents)
      (fun x : Nat => Real.log ((documents.length : ℝ) / ((x : ℝ) + 1)) + 1) t,
      mapGet_docFrequency, if_neg (by omega)]
    rfl

/-- C3: for every corpus and every term occurring in at least one document,
the cached IDF value is `ln(N / (df(t) + 1)) + 1`, with `df(t)` the number of
distinct documents containing the term; on the corpus
`[["cat","dog","cat"], ["dog","bird"]]` (`N = 2`) this gives
`idf(cat) = ln(2/2) + 1 = 1`, `idf(dog) = ln(2/3) + 1` and `idf(bird) = 1`. -/
theorem C3_idf_formula :
    (∀ (documents : List (List String)) (t : String),
      0 < specDf documents t →
      mapGet (TfIdf.ofDocuments documents).idfCache t =
        some (Real.log ((documents.length : ℝ) /
          ((specDf documents t : ℝ) + 1)) + 1)) ∧
    mapGet (TfIdf.ofDocuments
      [["cat", "dog", "cat"], ["dog", "bird"]]).idfCache "cat" = some 1 ∧
    mapGet (TfIdf.ofDocuments
      [["cat", "dog", "cat"], ["dog", "bird"]]).idfCache "dog" =
      some (Real.log ((2 : ℝ) / 3) + 1) ∧
    mapGet (TfIdf.ofDocuments
      [["cat", "dog", "cat"], ["dog", "bird"]]).idfCache "bird" = some 1 := by
  refine ⟨idfCache_lookup, ?_, ?_, ?_⟩
  · rw [idfCache_lookup _ _ (by decide),
      show specDf [["cat", "dog", "cat"], ["dog", "bird"]] "cat" = 1 from by
        decide]
    norm_num [Real.log_one]
  · rw [idfCache_lookup _ _ (by decide),
      show specDf [["cat", "dog", "cat"], ["dog", "bird"]] "dog" = 2 from by
        decide]
    norm_num
  · rw [idfCache_lookup _ _ (by decide),
      show specDf [["cat", "dog", "cat"], ["dog", "bird"]] "bird" = 1 from by
        decide]
    norm_num [Real.log_one]

/-- C3 witness: the general formula instantiated on the two-document corpus
at the term `cat`. -/
theorem C3_idf_formula_witness :
    mapGet (TfIdf.ofDocuments
      [["cat", "dog", "cat"], ["dog", "bird"]]).idfCache "cat" =
      some (Real.log (((([["cat", "dog", "cat"], ["dog", "bird"]] :
          List (List String)).length : ℝ)) /
        ((specDf [["cat", "dog", "cat"], ["dog", "bird"]] "cat" : ℝ) + 1)) + 1) :=
  C3_idf_formula.1 [["cat", "dog", "cat"], ["dog", "bird"]] "cat" (by decide)

/-- The occurrence-counting filter of `calculateTf` counts occurrences. -/
theorem length_filter_eq_count (l : List String) (s : String) :
    (l.filter (fun x => decide (x = s))).length = l.count s := by
  induction l with
  | nil => simp
  | cons x xs ih =>
    by_cases h : x = s <;>
      simp [List.filter_cons, List.count_cons, h, ih, beq_iff_eq]

/-- `calculateTf` equals the spec-side term frequency (`0` for the empty
document, since real division by zero is `0`). -/
theorem calculateTf_eq_specTf (t : String) (doc : List String) :
    TfIdf.calculateTf t doc = specTf t doc := by
  unfold TfIdf.calculateTf specTf
  by_cases h : doc.length = 0
  · rw [if_pos h]
    rcases List.length_eq_zero.mp h with rfl
    simp
  · rw [if_neg h, length_filter_eq_count]

/-- C4: for every term and every valid document index the combined score is
`tf(t,d) * idf(t)` with `tf` the relative occurrence count (`0` on an empty
document) and `idf` defaulting to `0` for a term never seen in the corpus;
in particular an unseen term scores `0` at every index, without error. -/
theorem C4_score_decomposition :
    (∀ (documents : List (List String)) (t : String) (d : Nat)
      (doc : List String),
      (TfIdf.ofDocuments documents).documents.get? d = some doc →
      (TfIdf.getTfIdf (TfIdf.ofDocuments documents) t d).1 =
        specTf t doc * specIdf documents t) ∧
    (∀ (documents : List (List String)) (t : String) (d : Nat),
      specDf documents t = 0 →
      (TfIdf.getTfIdf (TfIdf.ofDocuments documents) t d).1 = 0) := by
  constructor
  · intro documents t d doc h
    unfold TfIdf.getTfIdf
    rw [h]
    simp only []
    rw [calculateTf_eq_specTf]
    by_cases hdf : 0 < specDf documents t
    · rw [idfCache_lookup documents t hdf]
      unfold specIdf
      rw [if_pos hdf]
      rfl
    · have h0 : specDf documents t = 0 := by omega
      rw [idfCache_lookup_none documents t h0]
      unfold specIdf
      rw [if_neg hdf]
      rfl
  · intro documents t d h0
    unfold TfIdf.getTfIdf
    rcases hget : (TfIdf.ofDocuments documents).documents.get? d with _ | doc
    · rfl
    · rw [idfCache_lookup_none documents t h0]
      simp

/-- C4 witness: the score decomposition on the one-document corpus `[["a"]]`,
with the seen term `a` at index `0` and the unseen term `b`. -/
theorem C4_score_decomposition_witness :
    (TfIdf.getTfIdf (TfIdf.ofDocuments [["a"]]) "a" 0).1 =
      specTf "a" ["a"] * specIdf [["a"]] "a" ∧
    (TfIdf.getTfIdf (TfIdf.ofDocuments [["a"]]) "b" 0).1 = 0 :=
  ⟨C4_score_decomposition.1 [["a"]] "a" 0 ["a"] (by rfl),
    C4_score_decomposition.2 [["a"]] "b" 0 (by decide)⟩

/-- C9: for a fixed corpus, the cached IDF weight is non-increasing in the
document frequency: if both terms occur and `df(t1) ≤ df(t2)` then
`idf(t2) ≤ idf(t1)`. -/
theorem C9_idf_monotone :
    ∀ (documents : List (List String)) (t1 t2 : String),
      0 < specDf documents t1 → 0 < specDf documents t2 →
      specDf documents t1 ≤ specDf documents t2 →
      (mapGet (TfIdf.ofDocuments documents).idfCache t2).getD 0 ≤
        (mapGet (TfIdf.ofDocuments documents).idfCache t1).getD 0 := by
  intro documents t1 t2 h1 h2 hle
  rw [idfCache_lookup documents t1 h1, idfCache_lookup documents t2 h2]
  simp only [Option.getD_some]
  have hN : (0 : ℝ) < (documents.length : ℝ) := by
    have hne : documents ≠ [] := by
      intro h
      rw [h] at h1
      simp [specDf] at h1
    exact_mod_cast List.length_pos.mpr hne
  have hc : (specDf documents t1 : ℝ) + 1 ≤ (specDf documents t2 : ℝ) + 1 := by
    have : (specDf documents t1 : ℝ) ≤ (specDf documents t2 : ℝ) := by
      exact_mod_cast hle
    linarith
  have harg : (documents.length : ℝ) / ((specDf documents t2 : ℝ) + 1) ≤
      (documents.length : ℝ) / ((specDf documents t1 : ℝ) + 1) := by
    gcongr
  have hpos : (0 : ℝ) <
      (documents.length : ℝ) / ((specDf documents t2 : ℝ) + 1) := by
    positivity
  have := Real.log_le_log hpos harg
  linarith

/-- C9 witness: on the corpus `[["cat","dog","cat"], ["dog","bird"]]`,
`df(cat) = 1 ≤ df(dog) = 2` forces `idf(dog) ≤ idf(cat)`. -/
theorem C9_idf_monotone_witness :
    (mapGet (TfIdf.ofDocuments
      [["cat", "dog", "cat"], ["dog", "bird"]]).idfCache "dog").getD 0 ≤
      (mapGet (TfIdf.ofDocuments
        [["cat", "dog", "cat"], ["dog", "bird"]]).idfCache "cat").getD 0 :=
  C9_idf_monotone [["cat", "dog", "cat"], ["dog", "bird"]] "cat" "dog"
    (by decide) (by decide) (by decide)

/-- C7: the scoring core degrades instead of throwing.  The scorer built over
the empty corpus answers `0` (or the empty mapping) on every query, each such
query records a diagnostic, and the constructor itself records one; for any
corpus, an invalid document index makes `getDocumentScores` return the empty
mapping plus a diagnostic.  All operations are total functions of the model,
so no evaluation can raise an exception. -/
theorem C7_degrade_no_throw :
    (∀ (t : String) (d : Nat),
      (TfIdf.getTfIdf (TfIdf.ofDocuments []) t d).1 = 0 ∧
      (TfIdf.getTfIdf (TfIdf.ofDocuments []) t d).2 ≠ []) ∧
    (∀ d : Nat,
      (TfIdf.getDocumentScores (TfIdf.ofDocuments []) d).1 = [] ∧
      (TfIdf.getDocumentScores (TfIdf.ofDocuments []) d).2 ≠ []) ∧
    (TfIdf.ofDocuments []).warnings ≠ [] ∧
    (∀ (documents : List (List String)) (d : Nat),
      (TfIdf.ofDocuments documents).documents.get? d = none →
      TfIdf.getDocumentScores (TfIdf.ofDocuments documents) d =
        ([], ["Document with index " ++ toString d ++ " not found."])) := by
  refine ⟨?_, ?_, ?_, ?_⟩
  · intro t d
    constructor <;> simp [TfIdf.getTfIdf, TfIdf.ofDocuments]
  · intro d
    constructor <;> simp [TfIdf.getDocumentScores, TfIdf.ofDocuments]
  · simp [TfIdf.ofDocuments]
  · intro documents d h
    unfold TfIdf.getDocumentScores
    rw [h]

/-- C7 witness: the invalid index `5` on the nonempty corpus `[["a"]]`. -/
theorem C7_degrade_no_throw_witness :
    TfIdf.getDocumentScores (TfIdf.ofDocuments [["a"]]) 5 =
      ([], ["Document with index " ++ toString 5 ++ " not found."]) :=
  C7_degrade_no_throw.2.2.2 [["a"]] 5 (by rfl)

/-- C8: the orchestrator builds exactly one corpus scorer when more than one
document is supplied and none for a single document; `getKeywords` returns,
at position `i`, the top keywords of a fresh ranking run over document `i`
seeded with that document's corpus scores when a scorer exists (positions
past the corpus give nothing, so input order is preserved); and a run without
initial weights — the single-document case — uses uniform priors
`1 / #distinct terms`. -/
theorem C8_orchestrator :
    (∀ docs : List (List String),
      (KeywordExtractor.ofTokenizedDocs docs).tfidfModel.isSome = true ↔
        1 < docs.length) ∧
    (∀ (docs : List (List String)) (topN : Nat) (opts : TextRankOptions ℝ)
      (i : Nat),
      ((KeywordExtractor.ofTokenizedDocs docs).getKeywords topN opts).get? i =
        if i < docs.length then
          some (TextRank.getTopKeywords
            (TextRank.runScores (TextRank.mkConfig opts) (docs.getD i [])
              (if 1 < docs.length then
                some ((TfIdf.getDocumentScores (TfIdf.ofDocuments docs) i).1)
              else none)) topN)
        else none) ∧
    (∀ (cfg : TextRankConfig ℝ) (doc : List String) (w : String),
      w ∈ doc →
      mapGet (TextRank.runPriors cfg doc none) w =
        some (1 / ((setDedup doc).length : ℝ))) := by
  refine ⟨?_, ?_, ?_⟩
  · intro docs
    unfold KeywordExtractor.ofTokenizedDocs
    by_cases h : 1 < docs.length <;> simp [h]
  · intro docs topN opts i
    unfold KeywordExtractor.getKeywords KeywordExtractor.ofTokenizedDocs
    rw [List.get?_map]
    by_cases hi : i < docs.length
    · rw [List.get?_range hi, if_pos hi]
      simp only [Option.map_some']
      by_cases hlen : 1 < docs.length <;> simp [hlen]
    · rw [if_neg hi, List.get?_eq_none.mpr
        (by simpa using Nat.le_of_not_lt hi)]
      rfl
  · intro cfg doc w hw
    unfold TextRank.runPriors
    rw [getNodes_buildGraph]
    have hw2 : w ∈ setDedup doc := (mem_setDedup doc w).mpr hw
    rw [mapGet_computePriors (setDedup doc) none w hw2]
    have hmap : (setDedup doc).map
        (specRawPrior (none : Option (List (String × ℝ)))) =
        (setDedup doc).map (fun _ => (1 : ℝ)) := rfl
    rw [hmap, sum_map_one]
    have hpos : (0 : ℝ) < ((setDedup doc).length : ℝ) := by
      have : 0 < (setDedup doc).length :=
        List.length_pos.mpr (List.ne_nil_of_mem hw2)
      exact_mod_cast this
    rw [if_pos hpos]
    norm_num [specRawPrior]

/-- C8 witness: the uniform-prior conjunct instantiated on the single
document `["a"]`. -/
theorem C8_orchestrator_witness :
    mapGet (TextRank.runPriors (⟨0.85, 200, 0.0001, 5⟩ : TextRankConfig ℝ)
      ["a"] none) "a" = some (1 / ((setDedup ["a"]).length : ℝ)) :=
  C8_orchestrator.2.2 ⟨0.85, 200, 0.0001, 5⟩ ["a"] "a" (by decide)
